import Mathlib

/-!
Verification of the PySpec lock-in scan engine (`src/daq/ScanLockin.py`).

The development shallowly embeds the per-window acquisition state machine of
`SingleScan` / `TestClass` (ping-pong sweep averaging), the batch sequencing of
`JPLScanWindow.next_entry`, the pause/resume wiring of `TestClass.pause_scan`,
and the frequency-axis generator.  Machine floats are modelled as exact
rationals; numpy arrays as lists of rationals.
-/

namespace PySpec

/-! ## List helpers: pointwise access and elementwise addition -/

/-- Read entry `j` of an array, defaulting to `0` out of range (numpy arrays in
the source are always accessed in bounds; the default only smooths statements). -/
def geti (l : List ℚ) (j : ℕ) : ℚ := l.getD j 0

/-- Elementwise addition of two arrays (numpy `+=` on same-shape arrays). -/
def addArr (a b : List ℚ) : List ℚ := List.zipWith (· + ·) a b

theorem geti_nil (j : ℕ) : geti [] j = 0 := by
  cases j <;> rfl

theorem geti_cons_zero (a : ℚ) (l : List ℚ) : geti (a :: l) 0 = a := rfl

theorem geti_cons_succ (a : ℚ) (l : List ℚ) (j : ℕ) :
    geti (a :: l) (j + 1) = geti l j := rfl

theorem geti_set_self (l : List ℚ) (i : ℕ) (a : ℚ) (h : i < l.length) :
    geti (l.set i a) i = a := by
  induction l generalizing i with
  | nil => simp at h
  | cons b t ih =>
    cases i with
    | zero => rfl
    | succ i =>
      simp only [List.set]
      rw [geti_cons_succ]
      exact ih i (by simpa using h)

theorem geti_set_ne (l : List ℚ) (i : ℕ) (a : ℚ) (j : ℕ) (h : j ≠ i) :
    geti (l.set i a) j = geti l j := by
  induction l generalizing i j with
  | nil => cases i <;> rfl
  | cons b t ih =>
    cases i with
    | zero =>
      cases j with
      | zero => exact absurd rfl h
      | succ j => rfl
    | succ i =>
      cases j with
      | zero => rfl
      | succ j =>
        simp only [List.set]
        rw [geti_cons_succ, geti_cons_succ]
        exact ih i j (by omega)

theorem geti_replicate (n j : ℕ) : geti (List.replicate n (0 : ℚ)) j = 0 := by
  induction n generalizing j with
  | zero => exact geti_nil j
  | succ n ih =>
    cases j with
    | zero => rfl
    | succ j => simpa [List.replicate, geti_cons_succ] using ih j

theorem length_addArr (a b : List ℚ) : (addArr a b).length = min a.length b.length := by
  simp [addArr]

theorem geti_addArr (a b : List ℚ) (j : ℕ) (ha : j < a.length) (hb : j < b.length) :
    geti (addArr a b) j = geti a j + geti b j := by
  induction a generalizing b j with
  | nil => simp at ha
  | cons x t ih =>
    cases b with
    | nil => simp at hb
    | cons y u =>
      cases j with
      | zero => rfl
      | succ j =>
        simp only [addArr, List.zipWith]
        rw [geti_cons_succ, geti_cons_succ, geti_cons_succ]
        exact ih u j (by simpa using ha) (by simpa using hb)

theorem addArr_replicate_zero (l : List ℚ) (n : ℕ) (h : l.length = n) :
    addArr (List.replicate n 0) l = l := by
  induction l generalizing n with
  | nil => subst h; rfl
  | cons x t ih =>
    cases n with
    | zero => simp at h
    | succ n =>
      have ht : t.length = n := by simpa using h
      show List.zipWith (· + ·) (0 :: List.replicate n 0) (x :: t) = x :: t
      rw [List.zipWith_cons_cons, zero_add]
      exact congrArg (x :: ·) (ih n ht)

/-! ## ScanState: the per-window mutable state of `SingleScan` / `TestClass`

Fields mirror the Python attributes: frequency axis `x`, `current_x_index`,
requested average count `avg`, completed-pass counter `current_avg`,
current-pass sample array `y`, accumulated-sum array `y_sum`. -/

structure ScanState where
  x : List ℚ
  current_x_index : ℕ
  avg : ℕ
  current_avg : ℕ
  y : List ℚ
  y_sum : List ℚ
deriving DecidableEq, Repr

/-- Embedding of `SingleScan.update_ysum` (lines 407-413): add the current-pass
array elementwise into the accumulated-sum array. -/
def update_ysum (st : ScanState) : ScanState :=
  { st with y_sum := addArr st.y_sum st.y }

/-- Embedding of `SingleScan.next_freq` (lines 390-405): the ping-pong advancing
rule.  Odd completed-pass counter sweeps forward, even sweeps backward; when the
index cannot move, the counter is incremented and the pass is folded into the
accumulated sum via `update_ysum`. -/
def next_freq (st : ScanState) : ScanState :=
  if st.current_avg % 2 = 1 then
    if st.current_x_index < st.x.length - 1 then
      { st with current_x_index := st.current_x_index + 1 }
    else
      update_ysum { st with current_avg := st.current_avg + 1 }
  else
    if 0 < st.current_x_index then
      { st with current_x_index := st.current_x_index - 1 }
    else
      update_ysum { st with current_avg := st.current_avg + 1 }

/-- One acquisition step: the data-flow core of `SingleScan.query_lockin_buffer`
(lines 376-383) with the measured buffer mean abstracted as the sample `s`:
store `s` at the current index of the current-pass array, then advance via
`next_freq`. -/
def acquireStep (s : ℚ) (st : ScanState) : ScanState :=
  next_freq { st with y := st.y.set st.current_x_index s }

/-- The scan-state part of `SingleScan.update_setting` (lines 320-343): fresh
axis, index 0, pass counter 0, zeroed current-pass and accumulated-sum arrays. -/
def installState (xs : List ℚ) (N : ℕ) : ScanState :=
  { x := xs
    current_x_index := 0
    avg := N
    current_avg := 0
    y := List.replicate xs.length 0
    y_sum := List.replicate xs.length 0 }

/-- Iterated acquisition: `runScan f st k` performs `k` acquisition steps from
`st`, step `t` using sample `f t`. -/
def runScan (f : ℕ → ℚ) (st : ScanState) : ℕ → ScanState
  | 0 => st
  | k + 1 => acquireStep (f k) (runScan f st k)

/-- The completion test of `SingleScan.query_lockin_buffer` line 385:
`self.current_avg > self.avg`. -/
def completedState (st : ScanState) : Prop := st.avg < st.current_avg

instance (st : ScanState) : Decidable (completedState st) :=
  inferInstanceAs (Decidable (st.avg < st.current_avg))

/-- The spectrum handed to the store by `SingleScan.save_data` line 423:
`self.y_sum / self.current_avg` elementwise. -/
def save_spectrum (st : ScanState) : List ℚ :=
  st.y_sum.map (fun v => v / (st.current_avg : ℚ))

example :
    runScan (fun t => geti [1, 2, 3] t) (installState [1, 2] 1) 3 =
      { x := [1, 2], current_x_index := 1, avg := 1, current_avg := 2,
        y := [2, 3], y_sum := [3, 3] } := by
  norm_num [runScan, acquireStep, next_freq, update_ysum, installState, geti, addArr,
    List.replicate, List.set, List.zipWith]

example : save_spectrum (runScan (fun t => geti [1, 2, 3] t) (installState [1, 2] 1) 3) =
    [3 / 2, 3 / 2] := by
  norm_num [runScan, acquireStep, next_freq, update_ysum, installState, geti, addArr,
    save_spectrum, List.replicate, List.set, List.zipWith]

/-! ## Branch lemmas for the advancing rule -/

theorem next_freq_move_fwd (st : ScanState) (h1 : st.current_avg % 2 = 1)
    (h2 : st.current_x_index < st.x.length - 1) :
    next_freq st = { st with current_x_index := st.current_x_index + 1 } := by
  simp [next_freq, h1, h2]

theorem next_freq_fold_fwd (st : ScanState) (h1 : st.current_avg % 2 = 1)
    (h2 : ¬ st.current_x_index < st.x.length - 1) :
    next_freq st = { st with current_avg := st.current_avg + 1,
                             y_sum := addArr st.y_sum st.y } := by
  simp [next_freq, update_ysum, h1, h2]

theorem next_freq_move_bwd (st : ScanState) (h1 : st.current_avg % 2 = 0)
    (h2 : 0 < st.current_x_index) :
    next_freq st = { st with current_x_index := st.current_x_index - 1 } := by
  have h1' : ¬ st.current_avg % 2 = 1 := by omega
  simp [next_freq, h1', h2]

theorem next_freq_fold_bwd (st : ScanState) (h1 : st.current_avg % 2 = 0)
    (h2 : st.current_x_index = 0) :
    next_freq st = { st with current_avg := st.current_avg + 1,
                             y_sum := addArr st.y_sum st.y } := by
  have h1' : ¬ st.current_avg % 2 = 1 := by omega
  simp [next_freq, update_ysum, h1', h2]

/-- Splitting an acquisition run at an intermediate point. -/
theorem runScan_add (f : ℕ → ℚ) (st : ScanState) (a b : ℕ) :
    runScan f st (a + b) = runScan (fun t => f (a + t)) (runScan f st a) b := by
  induction b with
  | zero => rfl
  | succ b ih =>
    show acquireStep (f (a + b)) (runScan f st (a + b)) = _
    rw [ih]
    rfl

/-! ## Movement lemmas: within-pass index motion -/

/-- During a forward (odd-counter) pass, `m` acquisition steps that stay short of
the last axis position advance the index by `m`, write the samples `g 0 … g (m-1)`
at consecutive indices, and leave the counter and the accumulated sum untouched. -/
theorem runScan_fwd (g : ℕ → ℚ) (st : ScanState)
    (hodd : st.current_avg % 2 = 1) (hyx : st.y.length = st.x.length) :
    ∀ m : ℕ, st.current_x_index + m < st.x.length →
      (runScan g st m).x = st.x ∧
      (runScan g st m).avg = st.avg ∧
      (runScan g st m).current_avg = st.current_avg ∧
      (runScan g st m).current_x_index = st.current_x_index + m ∧
      (runScan g st m).y_sum = st.y_sum ∧
      (runScan g st m).y.length = st.y.length ∧
      (∀ j, (j < st.current_x_index ∨ st.current_x_index + m ≤ j) →
        geti (runScan g st m).y j = geti st.y j) ∧
      (∀ j, st.current_x_index ≤ j → j < st.current_x_index + m →
        geti (runScan g st m).y j = g (j - st.current_x_index)) := by
  intro m
  induction m with
  | zero =>
    intro _
    exact ⟨rfl, rfl, rfl, rfl, rfl, rfl, fun j _ => rfl, fun j h1 h2 => by omega⟩
  | succ m ih =>
    intro h
    have hm : st.current_x_index + m < st.x.length := by omega
    obtain ⟨hx, havg, hp, hidx, hys, hylen, hout, hin⟩ := ih hm
    have estep : runScan g st (m + 1) =
        next_freq { runScan g st m with
          y := (runScan g st m).y.set (runScan g st m).current_x_index (g m) } := rfl
    set S := runScan g st m with hS
    set T : ScanState := { S with y := S.y.set S.current_x_index (g m) } with hT
    have hT1 : T.current_avg % 2 = 1 := by rw [hT]; simpa [hp] using hodd
    have hT2 : T.current_x_index < T.x.length - 1 := by
      rw [hT]; simp only [hidx, hx]; omega
    have estep2 : runScan g st (m + 1) =
        { T with current_x_index := T.current_x_index + 1 } := by
      rw [estep, next_freq_move_fwd T hT1 hT2]
    rw [estep2]
    refine ⟨by simp [hT, hx], by simp [hT, havg], by simp [hT, hp], ?_, by simp [hT, hys],
      by simp [hT, hylen], ?_, ?_⟩
    · simp only [hT, hidx]; omega
    · intro j hj
      have hj' : j ≠ S.current_x_index := by omega
      simp only [hT]
      rw [geti_set_ne _ _ _ _ hj']
      exact hout j (by omega)
    · intro j h1 h2
      rcases Nat.lt_or_ge j (st.current_x_index + m) with hlt | hge
      · have hj' : j ≠ S.current_x_index := by omega
        simp only [hT]
        rw [geti_set_ne _ _ _ _ hj']
        exact hin j h1 hlt
      · have hj : j = S.current_x_index := by omega
        have hb : S.current_x_index < S.y.length := by
          rw [hylen, hyx]; omega
        simp only [hT, hj]
        rw [geti_set_self _ _ _ hb]
        have : S.current_x_index - st.current_x_index = m := by omega
        rw [this]

/-- During a backward (even-counter) pass, `m` acquisition steps that stay above
index 0 decrement the index by `m`, write the samples `g 0 … g (m-1)` at
consecutive descending indices, and leave the counter and the accumulated sum
untouched. -/
theorem runScan_bwd (g : ℕ → ℚ) (st : ScanState)
    (heven : st.current_avg % 2 = 0) (hyx : st.y.length = st.x.length)
    (hix : st.current_x_index < st.x.length) :
    ∀ m : ℕ, m ≤ st.current_x_index →
      (runScan g st m).x = st.x ∧
      (runScan g st m).avg = st.avg ∧
      (runScan g st m).current_avg = st.current_avg ∧
      (runScan g st m).current_x_index = st.current_x_index - m ∧
      (runScan g st m).y_sum = st.y_sum ∧
      (runScan g st m).y.length = st.y.length ∧
      (∀ j, (j ≤ st.current_x_index - m ∨ st.current_x_index < j) →
        geti (runScan g st m).y j = geti st.y j) ∧
      (∀ j, st.current_x_index - m < j → j ≤ st.current_x_index →
        geti (runScan g st m).y j = g (st.current_x_index - j)) := by
  intro m
  induction m with
  | zero =>
    intro _
    exact ⟨rfl, rfl, rfl, rfl, rfl, rfl, fun j _ => rfl, fun j h1 h2 => by omega⟩
  | succ m ih =>
    intro h
    have hm : m ≤ st.current_x_index := by omega
    obtain ⟨hx, havg, hp, hidx, hys, hylen, hout, hin⟩ := ih hm
    have estep : runScan g st (m + 1) =
        next_freq { runScan g st m with
          y := (runScan g st m).y.set (runScan g st m).current_x_index (g m) } := rfl
    set S := runScan g st m with hS
    set T : ScanState := { S with y := S.y.set S.current_x_index (g m) } with hT
    have hT1 : T.current_avg % 2 = 0 := by rw [hT]; simpa [hp] using heven
    have hT2 : 0 < T.current_x_index := by
      rw [hT]; simp only [hidx]; omega
    have estep2 : runScan g st (m + 1) =
        { T with current_x_index := T.current_x_index - 1 } := by
      rw [estep, next_freq_move_bwd T hT1 hT2]
    rw [estep2]
    refine ⟨by simp [hT, hx], by simp [hT, havg], by simp [hT, hp], ?_, by simp [hT, hys],
      by simp [hT, hylen], ?_, ?_⟩
    · simp only [hT, hidx]; omega
    · intro j hj
      have hj' : j ≠ S.current_x_index := by omega
      simp only [hT]
      rw [geti_set_ne _ _ _ _ hj']
      exact hout j (by omega)
    · intro j h1 h2
      rcases Nat.lt_or_ge (st.current_x_index - m) j with hlt | hge
      · have hj' : j ≠ S.current_x_index := by omega
        simp only [hT]
        rw [geti_set_ne _ _ _ _ hj']
        exact hin j hlt h2
      · have hj : j = S.current_x_index := by omega
        have hb : S.current_x_index < S.y.length := by
          rw [hylen, hyx]; omega
        simp only [hT, hj]
        rw [geti_set_self _ _ _ hb]
        have : st.current_x_index - S.current_x_index = m := by omega
        rw [this]

/-! ## Pass-level structure -/

/-- Index at which a pass with completed-pass counter `p` begins: forward passes
(odd `p`) begin at 0, backward passes (even `p`) begin at the last position. -/
def passStartIdx (p L : ℕ) : ℕ := if p % 2 = 1 then 0 else L - 1

/-- The current-pass array produced by a full pass with counter `p` fed by the
sample stream `g`: a forward pass writes `g j` at index `j`, a backward pass
writes `g (L-1-j)` at index `j`. -/
def passY (p : ℕ) (g : ℕ → ℚ) (L j : ℕ) : ℚ :=
  if p % 2 = 1 then g j else g (L - 1 - j)

/-- Running one complete pass: from a pass-start state with counter `p ≥ 1`,
`L` acquisition steps advance the counter to `p + 1`, leave the index at the
start of the next pass, replace the current-pass array by the pass samples, and
fold those samples elementwise into the accumulated sum exactly once (at the
last of the `L` steps). -/
theorem runScan_pass (g : ℕ → ℚ) (st : ScanState) (L : ℕ) (hL : 1 ≤ L)
    (hx : st.x.length = L) (hy : st.y.length = L) (hys : st.y_sum.length = L)
    (hstart : st.current_x_index = passStartIdx st.current_avg L) :
    (runScan g st L).x = st.x ∧
    (runScan g st L).avg = st.avg ∧
    (runScan g st L).current_avg = st.current_avg + 1 ∧
    (runScan g st L).current_x_index = passStartIdx (st.current_avg + 1) L ∧
    (runScan g st L).y.length = L ∧
    (runScan g st L).y_sum.length = L ∧
    (∀ j, j < L → geti (runScan g st L).y j = passY st.current_avg g L j) ∧
    (∀ j, j < L →
      geti (runScan g st L).y_sum j = geti st.y_sum j + passY st.current_avg g L j) ∧
    (∀ m, m < L → (runScan g st m).current_avg = st.current_avg) := by
  have hpar2 : st.current_avg % 2 = 0 ∨ st.current_avg % 2 = 1 := by omega
  rcases hpar2 with hpar | hpar
  · -- even counter: backward pass from index L - 1
    have hstart' : st.current_x_index = L - 1 := by
      rw [hstart, passStartIdx]; simp [hpar]
    have hix : st.current_x_index < st.x.length := by omega
    obtain ⟨hx1, havg1, hp1, hidx1, hys1, hylen1, hout1, hin1⟩ :=
      runScan_bwd g st hpar (by omega) hix (L - 1) (by omega)
    have estep : runScan g st L = acquireStep (g (L - 1)) (runScan g st (L - 1)) := by
      have hL1 : L = (L - 1) + 1 := by omega
      rw [hL1]; rfl
    set S := runScan g st (L - 1) with hS
    have hidxS : S.current_x_index = 0 := by rw [hidx1, hstart']; omega
    set T : ScanState := { S with y := S.y.set S.current_x_index (g (L - 1)) } with hT
    have hT1 : T.current_avg % 2 = 0 := by rw [hT]; simpa [hp1] using hpar
    have hT2 : T.current_x_index = 0 := by rw [hT]; simpa using hidxS
    have estep2 : runScan g st L =
        { T with current_avg := T.current_avg + 1, y_sum := addArr T.y_sum T.y } := by
      rw [estep, show acquireStep (g (L - 1)) S = next_freq T from rfl,
        next_freq_fold_bwd T hT1 hT2]
    have hTylen : T.y.length = L := by
      show (S.y.set S.current_x_index (g (L - 1))).length = L
      rw [List.length_set, hylen1, hy]
    have hTys : T.y_sum.length = L := by
      show S.y_sum.length = L
      rw [hys1, hys]
    have hby : ∀ j, j < L → geti T.y j = passY st.current_avg g L j := by
      intro j hj
      show geti (S.y.set S.current_x_index (g (L - 1))) j = _
      rw [hidxS]
      rcases Nat.eq_zero_or_pos j with hj0 | hjpos
      · have hb : (0 : ℕ) < S.y.length := by rw [hylen1, hy]; omega
        rw [hj0, geti_set_self _ _ _ hb, passY, if_neg (by omega), Nat.sub_zero]
      · rw [geti_set_ne _ _ _ _ (by omega), passY, if_neg (by omega)]
        have hv := hin1 j (by omega) (by omega)
        rw [hstart'] at hv
        exact hv
    refine ⟨?_, ?_, ?_, ?_, ?_, ?_, ?_, ?_, ?_⟩
    · rw [estep2]; show T.x = st.x; rw [hT]; simpa using hx1
    · rw [estep2]; show T.avg = st.avg; rw [hT]; simpa using havg1
    · rw [estep2]; show S.current_avg + 1 = st.current_avg + 1
      rw [hp1]
    · rw [estep2]; show T.current_x_index = passStartIdx (st.current_avg + 1) L
      rw [hT2]; simp only [passStartIdx]; rw [if_pos (by omega)]
    · rw [estep2]; exact hTylen
    · rw [estep2]; show (addArr T.y_sum T.y).length = L
      rw [length_addArr, hTylen, hTys]; omega
    · intro j hj
      rw [estep2]; exact hby j hj
    · intro j hj
      rw [estep2]; show geti (addArr T.y_sum T.y) j = _
      rw [geti_addArr _ _ _ (by omega) (by omega), hby j hj]
      have hvs : T.y_sum = st.y_sum := by show S.y_sum = st.y_sum; exact hys1
      rw [hvs]
    · intro m hm
      obtain ⟨_, _, hpm, _⟩ := runScan_bwd g st hpar (by omega) hix m (by omega)
      exact hpm
  · -- odd counter: forward pass from index 0
    have hstart' : st.current_x_index = 0 := by
      rw [hstart, passStartIdx]; simp [hpar]
    obtain ⟨hx1, havg1, hp1, hidx1, hys1, hylen1, hout1, hin1⟩ :=
      runScan_fwd g st hpar (by omega) (L - 1) (by omega)
    have estep : runScan g st L = acquireStep (g (L - 1)) (runScan g st (L - 1)) := by
      have hL1 : L = (L - 1) + 1 := by omega
      rw [hL1]; rfl
    set S := runScan g st (L - 1) with hS
    have hidxS : S.current_x_index = L - 1 := by rw [hidx1, hstart']; omega
    set T : ScanState := { S with y := S.y.set S.current_x_index (g (L - 1)) } with hT
    have hT1 : T.current_avg % 2 = 1 := by rw [hT]; simpa [hp1] using hpar
    have hT2 : ¬ T.current_x_index < T.x.length - 1 := by
      have h1 : T.current_x_index = L - 1 := by rw [hT]; simpa using hidxS
      have h2 : T.x.length = L := by
        rw [hT]
        show S.x.length = L
        rw [hx1, hx]
      omega
    have estep2 : runScan g st L =
        { T with current_avg := T.current_avg + 1, y_sum := addArr T.y_sum T.y } := by
      rw [estep, show acquireStep (g (L - 1)) S = next_freq T from rfl,
        next_freq_fold_fwd T hT1 hT2]
    have hTylen : T.y.length = L := by
      show (S.y.set S.current_x_index (g (L - 1))).length = L
      rw [List.length_set, hylen1, hy]
    have hTys : T.y_sum.length = L := by
      show S.y_sum.length = L
      rw [hys1, hys]
    have hby : ∀ j, j < L → geti T.y j = passY st.current_avg g L j := by
      intro j hj
      show geti (S.y.set S.current_x_index (g (L - 1))) j = _
      rw [hidxS]
      rcases Nat.lt_or_ge j (L - 1) with hjlt | hjge
      · rw [geti_set_ne _ _ _ _ (by omega), passY, if_pos (by omega)]
        have hv := hin1 j (by omega) (by omega)
        rw [hstart'] at hv
        simpa using hv
      · have hj' : j = L - 1 := by omega
        have hb : L - 1 < S.y.length := by rw [hylen1, hy]; omega
        rw [hj', geti_set_self _ _ _ hb, passY, if_pos (by omega)]
    refine ⟨?_, ?_, ?_, ?_, ?_, ?_, ?_, ?_, ?_⟩
    · rw [estep2]; show T.x = st.x; rw [hT]; simpa using hx1
    · rw [estep2]; show T.avg = st.avg; rw [hT]; simpa using havg1
    · rw [estep2]; show S.current_avg + 1 = st.current_avg + 1
      rw [hp1]
    · rw [estep2]; show T.current_x_index = passStartIdx (st.current_avg + 1) L
      have h1 : T.current_x_index = L - 1 := by rw [hT]; simpa using hidxS
      rw [h1]; simp only [passStartIdx]; rw [if_neg (by omega)]
    · rw [estep2]; exact hTylen
    · rw [estep2]; show (addArr T.y_sum T.y).length = L
      rw [length_addArr, hTylen, hTys]; omega
    · intro j hj
      rw [estep2]; exact hby j hj
    · intro j hj
      rw [estep2]; show geti (addArr T.y_sum T.y) j = _
      rw [geti_addArr _ _ _ (by omega) (by omega), hby j hj]
      have hvs : T.y_sum = st.y_sum := by show S.y_sum = st.y_sum; exact hys1
      rw [hvs]
    · intro m hm
      obtain ⟨_, _, hpm, _⟩ := runScan_fwd g st hpar (by omega) m (by omega)
      exact hpm

/-! ## Whole-window trajectory -/

/-- Contribution of the degenerate priming pass: a measured sample at index 0
only, zeros elsewhere. -/
def primeC (f : ℕ → ℚ) (j : ℕ) : ℚ := if j = 0 then f 0 else 0

/-- Acquisition step (0-based) at which full pass number `t + 1` measures the
sample folded at axis index `j`: forward passes (even `t`) hit index `j` at
offset `j + 1` past the pass start, backward passes at offset `L - j`. -/
def passSampleTime (L t j : ℕ) : ℕ :=
  1 + t * L + (if t % 2 = 0 then j else L - 1 - j)

/-- The first acquisition from a freshly installed window folds immediately:
pass counter becomes 1, the index stays 0, and both arrays hold the single
sample `f 0` at index 0 and zeros elsewhere. -/
theorem runScan_prime (f : ℕ → ℚ) (xs : List ℚ) (N : ℕ) (hL : 1 ≤ xs.length) :
    runScan f (installState xs N) 1 =
      { x := xs, current_x_index := 0, avg := N, current_avg := 1,
        y := (List.replicate xs.length 0).set 0 (f 0),
        y_sum := (List.replicate xs.length 0).set 0 (f 0) } := by
  have e1 : runScan f (installState xs N) 1 =
      next_freq { installState xs N with
        y := (List.replicate xs.length 0).set 0 (f 0) } := rfl
  set T : ScanState := { installState xs N with
    y := (List.replicate xs.length 0).set 0 (f 0) } with hT
  have hT1 : T.current_avg % 2 = 0 := rfl
  have hT2 : T.current_x_index = 0 := rfl
  rw [e1, next_freq_fold_bwd T hT1 hT2]
  have hlen : ((List.replicate xs.length (0 : ℚ)).set 0 (f 0)).length = xs.length := by
    rw [List.length_set, List.length_replicate]
  have hadd : addArr T.y_sum T.y = (List.replicate xs.length 0).set 0 (f 0) := by
    show addArr (List.replicate xs.length 0) ((List.replicate xs.length 0).set 0 (f 0)) = _
    exact addArr_replicate_zero _ _ hlen
  rw [hadd]
  rfl

/-- State after the priming pass plus `n` full passes (`1 + n·L` acquisitions):
the counter reads `n + 1`, the index sits at the start of pass `n + 2`, and each
accumulated-sum entry is the priming contribution plus one folded sample per
completed full pass. -/
theorem afterPasses (f : ℕ → ℚ) (xs : List ℚ) (N : ℕ) (hL : 1 ≤ xs.length) :
    ∀ n : ℕ,
      (runScan f (installState xs N) (1 + n * xs.length)).x = xs ∧
      (runScan f (installState xs N) (1 + n * xs.length)).avg = N ∧
      (runScan f (installState xs N) (1 + n * xs.length)).current_avg = n + 1 ∧
      (runScan f (installState xs N) (1 + n * xs.length)).current_x_index =
        passStartIdx (n + 1) xs.length ∧
      (runScan f (installState xs N) (1 + n * xs.length)).y.length = xs.length ∧
      (runScan f (installState xs N) (1 + n * xs.length)).y_sum.length = xs.length ∧
      (∀ j, j < xs.length →
        geti (runScan f (installState xs N) (1 + n * xs.length)).y_sum j =
          primeC f j + ∑ t in Finset.range n, f (passSampleTime xs.length t j)) := by
  intro n
  induction n with
  | zero =>
    rw [show 1 + 0 * xs.length = 1 by omega, runScan_prime f xs N hL]
    have hlen : ((List.replicate xs.length (0 : ℚ)).set 0 (f 0)).length = xs.length := by
      rw [List.length_set, List.length_replicate]
    refine ⟨rfl, rfl, rfl, ?_, hlen, hlen, ?_⟩
    · simp [passStartIdx]
    · intro j hj
      rcases Nat.eq_zero_or_pos j with hj0 | hjpos
      · rw [hj0]
        show geti ((List.replicate xs.length 0).set 0 (f 0)) 0 = primeC f 0 + 0
        rw [geti_set_self _ _ _ (by rw [List.length_replicate]; omega), primeC]
        simp
      · show geti ((List.replicate xs.length 0).set 0 (f 0)) j = primeC f j + 0
        rw [geti_set_ne _ _ _ _ (by omega), geti_replicate, primeC, if_neg (by omega)]
        simp
  | succ n ih =>
    obtain ⟨hx, havg, hp, hidx, hylen, hyslen, hysum⟩ := ih
    have esplit : runScan f (installState xs N) (1 + (n + 1) * xs.length) =
        runScan (fun t => f (1 + n * xs.length + t))
          (runScan f (installState xs N) (1 + n * xs.length)) xs.length := by
      rw [← runScan_add]
      congr 1
      ring
    set S := runScan f (installState xs N) (1 + n * xs.length) with hS
    have hstart : S.current_x_index = passStartIdx S.current_avg xs.length := by
      rw [hidx, hp]
    obtain ⟨px, pavg, pp, pidx, pylen, pyslen, _, pysum, _⟩ :=
      runScan_pass (fun t => f (1 + n * xs.length + t)) S xs.length hL
        (by rw [hx]) hylen hyslen hstart
    rw [esplit]
    refine ⟨by rw [px, hx], by rw [pavg, havg], by rw [pp, hp], ?_, pylen, pyslen, ?_⟩
    · rw [pidx, hp]
    · intro j hj
      rw [pysum j hj, hysum j hj, hp]
      have hpass : passY (n + 1) (fun t => f (1 + n * xs.length + t)) xs.length j =
          f (passSampleTime xs.length n j) := by
        rcases Nat.even_or_odd n with he | ho
        · have h0 : n % 2 = 0 := Nat.even_iff.mp he
          have h1 : (n + 1) % 2 = 1 := by omega
          simp only [passY, passSampleTime, h0, h1, if_pos]
        · have h0 : n % 2 = 1 := Nat.odd_iff.mp ho
          have h1 : ¬ (n + 1) % 2 = 1 := by omega
          simp only [passY, passSampleTime, h0, h1, if_neg, if_pos]
          rfl
      rw [hpass, Finset.sum_range_succ]
      ring

/-- Before the final acquisition of the last required pass, the completed-pass
counter never exceeds the requested average count. -/
theorem current_avg_le (f : ℕ → ℚ) (xs : List ℚ) (N : ℕ) (hL : 1 ≤ xs.length)
    (k : ℕ) (hk : k < 1 + N * xs.length) :
    (runScan f (installState xs N) k).current_avg ≤ N := by
  rcases Nat.eq_zero_or_pos k with hk0 | hkpos
  · rw [hk0]
    show (0 : ℕ) ≤ N
    omega
  · set L := xs.length with hLdef
    set n := (k - 1) / L with hn
    set m := (k - 1) % L with hm
    have hdm : n * L + m = k - 1 := by
      rw [hn, hm, Nat.mul_comm]
      exact Nat.div_add_mod (k - 1) L
    have hmL : m < L := Nat.mod_lt _ (by omega)
    have hnN : n < N := by
      by_contra hcon
      have : N * L ≤ n * L := Nat.mul_le_mul_right L (by omega)
      omega
    have hsplit : k = (1 + n * L) + m := by omega
    have esplit : runScan f (installState xs N) k =
        runScan (fun t => f (1 + n * L + t))
          (runScan f (installState xs N) (1 + n * L)) m := by
      rw [hsplit, runScan_add]
    obtain ⟨hx, havg, hp, hidx, hylen, hyslen, hysum⟩ := afterPasses f xs N hL n
    set S := runScan f (installState xs N) (1 + n * L) with hS
    have hstart : S.current_x_index = passStartIdx S.current_avg L := by
      rw [hidx, hp]
    obtain ⟨_, _, _, _, _, _, _, _, pmid⟩ :=
      runScan_pass (fun t => f (1 + n * L + t)) S L hL (by rw [hx]) hylen hyslen hstart
    rw [esplit, pmid m hmL, hp]
    omega

theorem geti_map (fn : ℚ → ℚ) (l : List ℚ) (j : ℕ) (h : j < l.length) :
    geti (l.map fn) j = fn (geti l j) := by
  induction l generalizing j with
  | nil => simp at h
  | cons a t ih =>
    cases j with
    | zero => rfl
    | succ j =>
      show geti (fn a :: t.map fn) (j + 1) = fn (geti (a :: t) (j + 1))
      rw [geti_cons_succ, geti_cons_succ]
      exact ih j (by simpa using h)

/-! ## Claim theorems over the core engine -/

/-- C1: for every window with axis length `L ≥ 1` and requested average count
`N ≥ 1`, the engine first satisfies the completion test (counter exceeding `N`)
after exactly `1 + N·L` acquisitions, at which moment the completed-pass counter
equals `N + 1` (one degenerate priming pass plus `N` full traversals), and the
spectrum handed to the store is the elementwise accumulated sum divided by the
counter, i.e. by `N + 1`. -/
theorem C1_pingpong_completion (xs : List ℚ) (N : ℕ) (f : ℕ → ℚ)
    (hL : 1 ≤ xs.length) (hN : 1 ≤ N) :
    (∀ k, k < 1 + N * xs.length →
      ¬ completedState (runScan f (installState xs N) k)) ∧
    completedState (runScan f (installState xs N) (1 + N * xs.length)) ∧
    (runScan f (installState xs N) (1 + N * xs.length)).current_avg = N + 1 ∧
    save_spectrum (runScan f (installState xs N) (1 + N * xs.length)) =
      (runScan f (installState xs N) (1 + N * xs.length)).y_sum.map
        (fun v => v / (((N : ℕ) : ℚ) + 1)) := by
  have havgconst : ∀ k, (runScan f (installState xs N) k).avg = N := by
    intro k
    induction k with
    | zero => rfl
    | succ k ih =>
      show (next_freq { runScan f (installState xs N) k with
        y := (runScan f (installState xs N) k).y.set
          (runScan f (installState xs N) k).current_x_index (f k) }).avg = N
      unfold next_freq update_ysum
      split <;> split <;> simpa using ih
  obtain ⟨hx, havg, hp, hidx, hylen, hyslen, hysum⟩ := afterPasses f xs N hL N
  refine ⟨?_, ?_, hp, ?_⟩
  · intro k hk hcomp
    have h1 := current_avg_le f xs N hL k hk
    have h2 := havgconst k
    have h3 : (runScan f (installState xs N) k).avg <
        (runScan f (installState xs N) k).current_avg := hcomp
    omega
  · show (runScan f (installState xs N) (1 + N * xs.length)).avg <
      (runScan f (installState xs N) (1 + N * xs.length)).current_avg
    rw [havg, hp]
    omega
  · show (runScan f (installState xs N) (1 + N * xs.length)).y_sum.map
        (fun v => v /
          (((runScan f (installState xs N) (1 + N * xs.length)).current_avg : ℕ) : ℚ)) = _
    rw [hp]
    congr 1
    funext v
    push_cast
    ring

theorem C1_pingpong_completion_witness :
    ¬ completedState (runScan (fun t => geti [1, 2, 3] t) (installState [1, 2] 1) 2) ∧
    completedState (runScan (fun t => geti [1, 2, 3] t) (installState [1, 2] 1) 3) ∧
    (runScan (fun t => geti [1, 2, 3] t) (installState [1, 2] 1) 3).current_avg = 2 ∧
    save_spectrum (runScan (fun t => geti [1, 2, 3] t) (installState [1, 2] 1) 3) =
      (runScan (fun t => geti [1, 2, 3] t) (installState [1, 2] 1) 3).y_sum.map
        (fun v => v / (((1 : ℕ) : ℚ) + 1)) := by
  have h := C1_pingpong_completion [1, 2] 1 (fun t => geti [1, 2, 3] t)
    (by decide) (by decide)
  exact ⟨h.1 2 (by decide), h.2.1, h.2.2.1, h.2.2.2⟩

/-- C2: the advancing rule of `next_freq`: with odd counter the index is
incremented unless already at the last axis position, in which case the counter
is incremented, the whole current-pass array is added elementwise into the
accumulated sum, and the index is not moved; with even counter symmetrically at
index 0; consequently the very first invocation from a fresh window (counter 0,
index 0) immediately counts as a completed single-point priming pass. -/
theorem C2_advancing_rule :
    (∀ st : ScanState, st.current_avg % 2 = 1 → st.current_x_index < st.x.length - 1 →
      next_freq st = { st with current_x_index := st.current_x_index + 1 }) ∧
    (∀ st : ScanState, st.current_avg % 2 = 1 → st.current_x_index = st.x.length - 1 →
      next_freq st = { st with current_avg := st.current_avg + 1,
                               y_sum := addArr st.y_sum st.y }) ∧
    (∀ st : ScanState, st.current_avg % 2 = 0 → 0 < st.current_x_index →
      next_freq st = { st with current_x_index := st.current_x_index - 1 }) ∧
    (∀ st : ScanState, st.current_avg % 2 = 0 → st.current_x_index = 0 →
      next_freq st = { st with current_avg := st.current_avg + 1,
                               y_sum := addArr st.y_sum st.y }) ∧
    (∀ (xs : List ℚ) (N : ℕ) (s : ℚ), 1 ≤ xs.length →
      acquireStep s (installState xs N) =
        { x := xs, current_x_index := 0, avg := N, current_avg := 1,
          y := (List.replicate xs.length 0).set 0 s,
          y_sum := (List.replicate xs.length 0).set 0 s }) := by
  refine ⟨next_freq_move_fwd, ?_, next_freq_move_bwd, next_freq_fold_bwd, ?_⟩
  · intro st h1 h2
    exact next_freq_fold_fwd st h1 (by omega)
  · intro xs N s hL
    exact runScan_prime (fun _ => s) xs N hL

theorem C2_advancing_rule_witness :
    next_freq ⟨[1, 2], 0, 1, 1, [5, 0], [0, 0]⟩ = ⟨[1, 2], 1, 1, 1, [5, 0], [0, 0]⟩ ∧
    next_freq ⟨[1, 2], 1, 1, 1, [5, 6], [0, 0]⟩ =
      ⟨[1, 2], 1, 1, 2, [5, 6], addArr [0, 0] [5, 6]⟩ ∧
    next_freq ⟨[1, 2], 1, 1, 2, [5, 6], [0, 0]⟩ = ⟨[1, 2], 0, 1, 2, [5, 6], [0, 0]⟩ ∧
    next_freq ⟨[1, 2], 0, 1, 2, [5, 6], [0, 0]⟩ =
      ⟨[1, 2], 0, 1, 3, [5, 6], addArr [0, 0] [5, 6]⟩ ∧
    acquireStep 7 (installState [1, 2] 1) =
      ⟨[1, 2], 0, 1, 1, (List.replicate 2 0).set 0 7, (List.replicate 2 0).set 0 7⟩ := by
  exact ⟨C2_advancing_rule.1 _ rfl (by decide),
    C2_advancing_rule.2.1 _ rfl rfl,
    C2_advancing_rule.2.2.1 _ rfl (by decide),
    C2_advancing_rule.2.2.2.1 _ rfl rfl,
    C2_advancing_rule.2.2.2.2 [1, 2] 1 7 (by decide)⟩

/-- C7: frame conditions on the two arrays within one window: installing a
window zero-initializes the accumulated-sum array (and the current-pass array);
each acquisition step writes the current-pass array only pointwise at the
current index (never resetting it), and either leaves the accumulated sum and
the pass counter untouched, or — exactly at a pass boundary, where the counter
increments — replaces the accumulated sum by its elementwise sum with the
current-pass array.  No other mutation of either array exists in the engine. -/
theorem C7_frame :
    (∀ (xs : List ℚ) (N : ℕ),
      (installState xs N).y_sum = List.replicate xs.length 0 ∧
      (installState xs N).y = List.replicate xs.length 0) ∧
    (∀ (st : ScanState) (s : ℚ),
      (acquireStep s st).y = st.y.set st.current_x_index s ∧
      (((acquireStep s st).y_sum = st.y_sum ∧
        (acquireStep s st).current_avg = st.current_avg) ∨
       ((acquireStep s st).y_sum = addArr st.y_sum ((acquireStep s st).y) ∧
        (acquireStep s st).current_avg = st.current_avg + 1))) := by
  constructor
  · intro xs N
    exact ⟨rfl, rfl⟩
  · intro st s
    set st' : ScanState := { st with y := st.y.set st.current_x_index s } with hst'
    have hstep : acquireStep s st = next_freq st' := rfl
    have hpar : st'.current_avg % 2 = 0 ∨ st'.current_avg % 2 = 1 := by omega
    rcases hpar with hpar | hpar
    · rcases Nat.eq_zero_or_pos st'.current_x_index with h0 | hpos
      · rw [hstep, next_freq_fold_bwd st' hpar h0]
        exact ⟨rfl, Or.inr ⟨rfl, rfl⟩⟩
      · rw [hstep, next_freq_move_bwd st' hpar hpos]
        exact ⟨rfl, Or.inl ⟨rfl, rfl⟩⟩
    · rcases Nat.lt_or_ge st'.current_x_index (st'.x.length - 1) with hlt | hge
      · rw [hstep, next_freq_move_fwd st' hpar hlt]
        exact ⟨rfl, Or.inl ⟨rfl, rfl⟩⟩
      · rw [hstep, next_freq_fold_fwd st' hpar (by omega)]
        exact ⟨rfl, Or.inr ⟨rfl, rfl⟩⟩

/-- C10: with axis length `L > 1`, the priming pass folds a current-pass array
holding a measured sample only at index 0 (zeros at indices `1 … L-1`); hence in
the saved spectrum every index other than 0 is a sum of only `N` measured
samples divided by `N + 1`, while index 0 averages `N + 1` measured samples. -/
theorem C10_priming_bias (xs : List ℚ) (N : ℕ) (f : ℕ → ℚ)
    (hL : 2 ≤ xs.length) (hN : 1 ≤ N) :
    geti (runScan f (installState xs N) 1).y_sum 0 = f 0 ∧
    (∀ j, 1 ≤ j → j < xs.length →
      geti (runScan f (installState xs N) 1).y_sum j = 0) ∧
    geti (save_spectrum (runScan f (installState xs N) (1 + N * xs.length))) 0 =
      (f 0 + ∑ t in Finset.range N, f (passSampleTime xs.length t 0)) /
        (((N : ℕ) : ℚ) + 1) ∧
    (∀ j, 1 ≤ j → j < xs.length →
      geti (save_spectrum (runScan f (installState xs N) (1 + N * xs.length))) j =
        (∑ t in Finset.range N, f (passSampleTime xs.length t j)) /
          (((N : ℕ) : ℚ) + 1)) := by
  have hL1 : 1 ≤ xs.length := by omega
  obtain ⟨hx0, havg0, hp0, hidx0, hylen0, hyslen0, hysum0⟩ := afterPasses f xs N hL1 0
  obtain ⟨hx, havg, hp, hidx, hylen, hyslen, hysum⟩ := afterPasses f xs N hL1 N
  have e0 : (1 : ℕ) = 1 + 0 * xs.length := by omega
  refine ⟨?_, ?_, ?_, ?_⟩
  · rw [e0, hysum0 0 (by omega)]
    simp [primeC]
  · intro j hj1 hj2
    rw [e0, hysum0 j hj2]
    simp [primeC, if_neg (by omega : ¬ j = 0)]
  · show geti ((runScan f (installState xs N) (1 + N * xs.length)).y_sum.map
      (fun v => v /
        (((runScan f (installState xs N) (1 + N * xs.length)).current_avg : ℕ) : ℚ))) 0 = _
    rw [geti_map _ _ _ (by rw [hyslen]; omega), hysum 0 (by omega), hp]
    simp only [primeC, if_pos rfl]
    push_cast
    ring
  · intro j hj1 hj2
    show geti ((runScan f (installState xs N) (1 + N * xs.length)).y_sum.map
      (fun v => v /
        (((runScan f (installState xs N) (1 + N * xs.length)).current_avg : ℕ) : ℚ))) j = _
    rw [geti_map _ _ _ (by rw [hyslen]; omega), hysum j hj2, hp]
    simp only [primeC, if_neg (by omega : ¬ j = 0)]
    push_cast
    ring

theorem C10_priming_bias_witness :
    geti (runScan (fun t => geti [1, 2, 3] t) (installState [1, 2] 1) 1).y_sum 0 =
      geti [1, 2, 3] 0 ∧
    geti (runScan (fun t => geti [1, 2, 3] t) (installState [1, 2] 1) 1).y_sum 1 = 0 ∧
    geti (save_spectrum (runScan (fun t => geti [1, 2, 3] t) (installState [1, 2] 1) 3)) 0 =
      (geti [1, 2, 3] 0 +
        ∑ t in Finset.range 1, geti [1, 2, 3] (passSampleTime 2 t 0)) / (((1 : ℕ) : ℚ) + 1) ∧
    geti (save_spectrum (runScan (fun t => geti [1, 2, 3] t) (installState [1, 2] 1) 3)) 1 =
      (∑ t in Finset.range 1, geti [1, 2, 3] (passSampleTime 2 t 1)) / (((1 : ℕ) : ℚ) + 1) := by
  have h := C10_priming_bias [1, 2] 1 (fun t => geti [1, 2, 3] t) (by decide) (by decide)
  exact ⟨h.1, h.2.1 1 (by decide) (by decide), h.2.2.1, h.2.2.2 1 (by decide) (by decide)⟩

/-! ## Frequency-axis generator -/

/-- Failure value of the frequency-axis generator. -/
inductive AxisError
  | invalidRange
deriving DecidableEq, Repr

/-- Successful payload of the frequency-axis generator: the ascending sequence
`start, start + step, …` of all values not exceeding `stop`. -/
def xArr (start stop step : ℚ) : List ℚ :=
  (List.range ((⌊(stop - start) / step⌋).toNat + 1)).map
    (fun i : ℕ => start + (i : ℚ) * step)

/-- Modelled from the spec: the frequency-axis generator `Shared.gen_x_array`
lives in `gui/SharedWidgets.py`, which is not part of `src/`; `src/daq/ScanLockin.py`
only calls it (lines 326 and 509).  Per the spec contract (§4.1) it produces a
finite ascending sequence beginning at `start`, advancing by `step`, covering
the span up to and including `stop` whenever `stop` is exactly reachable,
otherwise up to the last value not exceeding `stop`, and fails with
`InvalidRange` if `step` is zero or negative or `start > stop`. -/
def gen_x_array (start stop step : ℚ) : Except AxisError (List ℚ) :=
  if step ≤ 0 ∨ stop < start then Except.error AxisError.invalidRange
  else Except.ok (xArr start stop step)

/-- C8: for `step > 0` and `start ≤ stop` the generator succeeds with a
nonempty sequence whose first element is `start`, whose consecutive differences
equal `step` exactly, which is strictly ascending, whose every element is at
most `stop` (`stop` itself included when exactly reachable); it fails with
`InvalidRange` when `step ≤ 0` or `start > stop`; and on the spec example
`start = 100.000`, `stop = 100.010`, `step = 0.005` it yields
`[100.000, 100.005, 100.010]`. -/
theorem C8_freq_axis :
    (∀ start stop step : ℚ, 0 < step → start ≤ stop →
      gen_x_array start stop step = Except.ok (xArr start stop step)) ∧
    (∀ start stop step : ℚ, 0 < step → start ≤ stop →
      (xArr start stop step).head? = some start) ∧
    (∀ start stop step : ℚ, 0 < step → start ≤ stop →
      List.Chain' (fun a b => b = a + step) (xArr start stop step)) ∧
    (∀ start stop step : ℚ, 0 < step → start ≤ stop →
      List.Chain' (· < ·) (xArr start stop step)) ∧
    (∀ start stop step : ℚ, 0 < step → start ≤ stop →
      ∀ v ∈ xArr start stop step, v ≤ stop) ∧
    (∀ start stop step : ℚ, 0 < step → start ≤ stop →
      ∀ k : ℕ, stop = start + (k : ℚ) * step → stop ∈ xArr start stop step) ∧
    (∀ start stop step : ℚ, step ≤ 0 ∨ stop < start →
      gen_x_array start stop step = Except.error AxisError.invalidRange) ∧
    gen_x_array 100 100.010 0.005 = Except.ok [100, 100.005, 100.010] := by
  have hq : ∀ start stop step : ℚ, 0 < step → start ≤ stop →
      (0 : ℤ) ≤ ⌊(stop - start) / step⌋ := by
    intro start stop step hstep hr
    exact Int.floor_nonneg.mpr (div_nonneg (sub_nonneg.mpr hr) hstep.le)
  refine ⟨?_, ?_, ?_, ?_, ?_, ?_, ?_, ?_⟩
  · intro start stop step hstep hr
    rw [gen_x_array, if_neg (by push_neg; exact ⟨hstep, hr⟩)]
  · intro start stop step hstep hr
    rw [xArr, List.range_succ_eq_map]
    simp
  · intro start stop step hstep hr
    rw [xArr, List.chain'_map]
    rw [List.chain'_range_succ]
    intro m hm
    push_cast
    ring
  · intro start stop step hstep hr
    rw [xArr, List.chain'_map]
    rw [List.chain'_range_succ]
    intro m hm
    have : (m : ℚ) * step < (m + 1 : ℕ) * step := by
      apply mul_lt_mul_of_pos_right _ hstep
      push_cast
      linarith
    linarith
  · intro start stop step hstep hr v hv
    simp only [xArr, List.mem_map, List.mem_range] at hv
    obtain ⟨i, hi, hvi⟩ := hv
    have hf := hq start stop step hstep hr
    have hile : (i : ℚ) ≤ (stop - start) / step := by
      have h1 : (i : ℤ) ≤ ⌊(stop - start) / step⌋ := by omega
      calc ((i : ℤ) : ℚ) ≤ (⌊(stop - start) / step⌋ : ℚ) := by exact_mod_cast h1
        _ ≤ (stop - start) / step := Int.floor_le _
    have hmul : (i : ℚ) * step ≤ stop - start := by
      have := mul_le_mul_of_nonneg_right hile hstep.le
      rwa [div_mul_cancel₀ _ (ne_of_gt hstep)] at this
    rw [← hvi]
    linarith
  · intro start stop step hstep hr k hk
    have hfl : ⌊(stop - start) / step⌋ = (k : ℤ) := by
      have : (stop - start) / step = (k : ℚ) := by
        rw [hk]
        field_simp
      rw [this]
      exact Int.floor_natCast k
    rw [xArr, hfl]
    have hmem : k ∈ List.range ((k : ℤ).toNat + 1) := by
      rw [List.mem_range]
      omega
    rw [List.mem_map]
    exact ⟨k, hmem, by rw [← hk]⟩
  · intro start stop step hbad
    rw [gen_x_array, if_pos hbad]
  · have e1 : ((100.010 : ℚ) - 100) / 0.005 = 2 := by norm_num
    rw [gen_x_array, if_neg (by norm_num), xArr, e1]
    have e2 : (⌊(2 : ℚ)⌋).toNat + 1 = 3 := by
      rw [show ⌊(2 : ℚ)⌋ = 2 by norm_num]
      rfl
    rw [e2]
    have e3 : List.range 3 = [0, 1, 2] := by decide
    rw [e3]
    show Except.ok [100 + (0 : ℚ) * 0.005, 100 + (1 : ℚ) * 0.005, 100 + (2 : ℚ) * 0.005] = _
    norm_num

theorem C8_freq_axis_witness :
    gen_x_array 1 2 1 = Except.ok (xArr 1 2 1) ∧
    (xArr 1 2 1).head? = some 1 ∧
    gen_x_array 1 2 (-1) = Except.error AxisError.invalidRange := by
  exact ⟨C8_freq_axis.1 1 2 1 one_pos one_le_two,
    C8_freq_axis.2.1 1 2 1 one_pos one_le_two,
    C8_freq_axis.2.2.2.2.2.2.1 1 2 (-1) (Or.inl (by norm_num))⟩

/-! ## Instrumented engine: `SingleScan` with observable external calls -/

/-- Batch entry settings tuple, in the order produced by
`JPLScanConfig.get_settings`: `(start_freq, stop_freq, step, averages,
sens_index, tc_index, itgtime, waittime)`. -/
structure EntrySetting where
  start_freq : ℚ
  stop_freq : ℚ
  step : ℚ
  average : ℕ
  sens_index : ℕ
  tc_index : ℕ
  itgtime : ℚ
  waittime : ℚ
deriving DecidableEq, Repr

/-- Externally observable calls made by the engine (instrument commands, plot
publications, persistence, and batch signalling).  `reportHalt` is in the
vocabulary so that error-reporting claims can be stated; the engine never emits
it. -/
inductive Action
  | setSens (i : ℕ)
  | setTc (i : ℕ)
  | tuneSyn (freq : ℚ)
  | clearBuffer
  | pauseBuffer
  | queryCount
  | readSamples (count : ℕ)
  | publishY (l : List ℚ)
  | publishYsum (l : List ℚ)
  | saveData (spectrum : List ℚ)
  | nextEntry
  | reportHalt (window stateId : ℕ)
deriving DecidableEq, Repr

/-- Engine state of a `SingleScan` widget: scan data plus the two single-shot
timers (`waitTimer` = settle delay, `itgTimer` = integration delay). -/
structure SState where
  scan : ScanState
  waitArmed : Bool
  itgArmed : Bool
deriving DecidableEq, Repr

/-- Embedding of `SingleScan.tune_syn` (lines 345-349): command the synthesizer
to the axis value at the current index divided by the band-selected sub-harmonic
multiplier `mult` (`apival.MULTIPLIER[bandSelect.currentIndex()]`, taken as a
parameter), then start the settle (wait) timer. -/
def tune_syn (mult : ℚ) (s : SState) : SState × List Action :=
  ({ s with waitArmed := true },
   [Action.tuneSyn (geti s.scan.x s.scan.current_x_index / mult)])

/-- Embedding of `SingleScan.update_setting` (lines 320-343): build the axis
from the entry settings (`Shared.gen_x_array`; its successful payload is
`xArr`, validation upstream having accepted the range), reset the index and the
completed-pass counter to 0, zero both arrays, publish the zeroed sum, configure
lock-in sensitivity and time constant, then `tune_syn`. -/
def update_setting (mult : ℚ) (e : EntrySetting) (s : SState) : SState × List Action :=
  let xs := xArr e.start_freq e.stop_freq e.step
  let st : ScanState :=
    { x := xs, current_x_index := 0, avg := e.average, current_avg := 0,
      y := List.replicate xs.length 0, y_sum := List.replicate xs.length 0 }
  ((tune_syn mult { s with scan := st }).1,
   Action.publishYsum st.y_sum :: Action.setSens e.sens_index ::
     Action.setTc e.tc_index :: (tune_syn mult { s with scan := st }).2)

/-- Arithmetic mean of a sample list (`np.average`). -/
def mean (l : List ℚ) : ℚ := l.sum / (l.length : ℚ)

/-- Embedding of `SingleScan.query_lockin_buffer` (lines 364-388): pause the
lock-in buffer, query the buffered-sample count `n` (`SPTS?`), issue the read
with count argument `n - 1` (the source formats `int(n)-1` into
`TRCA1,0,{:d}`), average the returned samples, store the mean at the current
index of the current-pass array, publish that array, advance with `next_freq`,
then save if the counter now exceeds the requested averages, else retune. -/
def query_lockin_buffer (mult : ℚ) (buf : List ℚ) (s : SState) : SState × List Action :=
  let n := buf.length
  let y_avg := mean (buf.take (n - 1))
  let st1 : ScanState :=
    { s.scan with y := s.scan.y.set s.scan.current_x_index y_avg }
  let st2 := next_freq st1
  let acts := [Action.pauseBuffer, Action.queryCount, Action.readSamples (n - 1),
               Action.publishY st1.y]
  if st2.avg < st2.current_avg then
    (⟨st2, s.waitArmed, false⟩,
     acts ++ [Action.saveData (save_spectrum st2), Action.nextEntry])
  else
    ((tune_syn mult ⟨st2, s.waitArmed, false⟩).1,
     acts ++ (tune_syn mult ⟨st2, s.waitArmed, false⟩).2)

/-- Stated from the specification sentence, for comparison with the code: the
acquiring step is described as reading exactly the queried number of buffered
samples and storing their arithmetic mean. -/
def specAcquiredMean (buf : List ℚ) : ℚ := mean buf

theorem next_freq_y (st : ScanState) : (next_freq st).y = st.y := by
  unfold next_freq update_ysum
  split <;> split <;> rfl

theorem next_freq_y_sum_cases (st : ScanState) :
    (next_freq st).y_sum = st.y_sum ∨ (next_freq st).y_sum = addArr st.y_sum st.y := by
  unfold next_freq update_ysum
  split <;> split
  · exact Or.inl rfl
  · exact Or.inr rfl
  · exact Or.inl rfl
  · exact Or.inr rfl

/-- C5 counterexample: on a buffer holding the two samples `[2, 4]` the code
passes read count `n - 1 = 1` to the buffer-read command and stores `2`, the
mean of the single returned sample, whereas reading exactly the queried `n = 2`
samples would store their mean `3`. -/
theorem C5_read_count_counterexample :
    geti ((query_lockin_buffer 6 [2, 4]
      ⟨⟨[10, 20], 0, 1, 0, [0, 0], [0, 0]⟩, false, true⟩).1.scan.y) 0 = 2 ∧
    Action.readSamples 1 ∈ (query_lockin_buffer 6 [2, 4]
      ⟨⟨[10, 20], 0, 1, 0, [0, 0], [0, 0]⟩, false, true⟩).2 ∧
    Action.readSamples 2 ∉ (query_lockin_buffer 6 [2, 4]
      ⟨⟨[10, 20], 0, 1, 0, [0, 0], [0, 0]⟩, false, true⟩).2 ∧
    specAcquiredMean [2, 4] = 3 ∧
    (2 : ℚ) ≠ 3 := by
  have hacts : (query_lockin_buffer 6 [2, 4]
      ⟨⟨[10, 20], 0, 1, 0, [0, 0], [0, 0]⟩, false, true⟩).2 =
      [Action.pauseBuffer, Action.queryCount, Action.readSamples 1,
       Action.publishY [2, 0], Action.tuneSyn (5 / 3)] := by
    norm_num [query_lockin_buffer, tune_syn, mean, next_freq,
      update_ysum, addArr, geti, List.set, List.zipWith, List.take]
  refine ⟨?_, ?_, ?_, ?_, by norm_num⟩
  · norm_num [query_lockin_buffer, tune_syn, mean, next_freq,
      update_ysum, addArr, geti, List.set, List.zipWith, List.take]
  · rw [hacts]; simp
  · rw [hacts]; simp
  · norm_num [specAcquiredMean, mean]

/-- C5 (amended): on every integration-delay expiry the engine performs, in
order: pause the lock-in buffer, query the number `n` of buffered samples, read
with count argument `n - 1` (not `n`), compute the arithmetic mean of the
returned samples, store it at the current index of the current-pass array, and
publish the updated array; the current-pass array is never cleared — the step
only overwrites the entry at the current index in place. -/
theorem C5_acquire_step (mult : ℚ) (buf : List ℚ) (s : SState)
    (hn : 2 ≤ buf.length) :
    (query_lockin_buffer mult buf s).2.take 4 =
      [Action.pauseBuffer, Action.queryCount, Action.readSamples (buf.length - 1),
       Action.publishY (s.scan.y.set s.scan.current_x_index
         (mean (buf.take (buf.length - 1))))] ∧
    (query_lockin_buffer mult buf s).1.scan.y =
      s.scan.y.set s.scan.current_x_index (mean (buf.take (buf.length - 1))) ∧
    (∀ j, j ≠ s.scan.current_x_index →
      geti (query_lockin_buffer mult buf s).1.scan.y j = geti s.scan.y j) ∧
    (query_lockin_buffer mult buf s).1.scan.y.length = s.scan.y.length := by
  have hy : (query_lockin_buffer mult buf s).1.scan.y =
      s.scan.y.set s.scan.current_x_index (mean (buf.take (buf.length - 1))) := by
    unfold query_lockin_buffer
    dsimp only
    split
    · exact next_freq_y _
    · exact next_freq_y _
  have hacts : (query_lockin_buffer mult buf s).2.take 4 =
      [Action.pauseBuffer, Action.queryCount, Action.readSamples (buf.length - 1),
       Action.publishY (s.scan.y.set s.scan.current_x_index
         (mean (buf.take (buf.length - 1))))] := by
    unfold query_lockin_buffer
    dsimp only
    split <;> rfl
  refine ⟨hacts, hy, ?_, ?_⟩
  · intro j hj
    rw [hy]
    exact geti_set_ne _ _ _ _ hj
  · rw [hy, List.length_set]

theorem C5_acquire_step_witness :
    (query_lockin_buffer 6 [2, 4]
        ⟨⟨[10, 20], 0, 1, 0, [0, 0], [0, 0]⟩, false, true⟩).2.take 4 =
      [Action.pauseBuffer, Action.queryCount,
       Action.readSamples (List.length [(2 : ℚ), 4] - 1),
       Action.publishY (([(0 : ℚ), 0]).set 0 (mean ([(2 : ℚ), 4].take (List.length [(2 : ℚ), 4] - 1))))] ∧
    geti (query_lockin_buffer 6 [2, 4]
        ⟨⟨[10, 20], 0, 1, 0, [0, 0], [0, 0]⟩, false, true⟩).1.scan.y 1 =
      geti [(0 : ℚ), 0] 1 ∧
    (query_lockin_buffer 6 [2, 4]
        ⟨⟨[10, 20], 0, 1, 0, [0, 0], [0, 0]⟩, false, true⟩).1.scan.y.length =
      List.length [(0 : ℚ), 0] := by
  have h := C5_acquire_step 6 [2, 4]
    ⟨⟨[10, 20], 0, 1, 0, [0, 0], [0, 0]⟩, false, true⟩ (by decide)
  exact ⟨h.1, h.2.2.1 1 (by decide), h.2.2.2⟩

/-- C6: installing a new entry setting builds the frequency axis from the
settings, resets the current index to 0 and the completed-pass counter to 0,
zeroes the accumulated-sum array, configures the lock-in sensitivity and time
constant from the settings, commands the synthesizer to the axis value at
index 0 divided by the band-selected sub-harmonic multiplier, and arms a settle
delay. -/
theorem C6_install (mult : ℚ) (e : EntrySetting) (s : SState) :
    (update_setting mult e s).1.scan.x = xArr e.start_freq e.stop_freq e.step ∧
    (update_setting mult e s).1.scan.current_x_index = 0 ∧
    (update_setting mult e s).1.scan.avg = e.average ∧
    (update_setting mult e s).1.scan.current_avg = 0 ∧
    (update_setting mult e s).1.scan.y_sum =
      List.replicate (xArr e.start_freq e.stop_freq e.step).length 0 ∧
    (update_setting mult e s).1.scan.y =
      List.replicate (xArr e.start_freq e.stop_freq e.step).length 0 ∧
    (update_setting mult e s).2 =
      [Action.publishYsum (List.replicate (xArr e.start_freq e.stop_freq e.step).length 0),
       Action.setSens e.sens_index, Action.setTc e.tc_index,
       Action.tuneSyn (geti (xArr e.start_freq e.stop_freq e.step) 0 / mult)] ∧
    (update_setting mult e s).1.waitArmed = true := by
  exact ⟨rfl, rfl, rfl, rfl, rfl, rfl, rfl, rfl⟩

/-! ## `TestClass` event machine: timers and pause wiring

`TestClass` (lines 438-587) is the engine variant instantiated by
`JPLScanWindow` (line 194).  `waitConnected` models whether `waitTimer.timeout`
is connected to `set_lockin_buffer` (`pause_scan`, lines 579-587, disconnects
it on press and reconnects it and restarts the timer on release);
`itgTimer.timeout` stays connected to `query_lockin_buffer` throughout.
`paused` mirrors the checked state of the pause button. -/

structure TCState where
  scan : ScanState
  waitArmed : Bool
  itgArmed : Bool
  waitConnected : Bool
  paused : Bool
deriving DecidableEq, Repr

/-- Embedding of `TestClass.tune_syn` (lines 527-529): announce the synthesizer
tune (axis value at the current index over the fixed multiplier 6) and start
the wait timer. -/
def TC_tune_syn (s : TCState) : TCState × List Action :=
  ({ s with waitArmed := true },
   [Action.tuneSyn (geti s.scan.x s.scan.current_x_index / 6)])

/-- Embedding of `TestClass.set_lockin_buffer` (lines 531-533): clear the
lock-in buffer and start the integration timer. -/
def TC_set_lockin_buffer (s : TCState) : TCState × List Action :=
  ({ s with itgArmed := true }, [Action.clearBuffer])

/-- Embedding of `TestClass.save_data` (lines 575-577): emit the
`move_to_next_entry` signal (the test variant persists nothing). -/
def TC_save_data (s : TCState) : TCState × List Action :=
  (s, [Action.nextEntry])

/-- Embedding of `TestClass.query_lockin_buffer` (lines 535-548) with the
random sample abstracted as the input `sample`: store it at the current index,
publish the current-pass array, advance with `next_freq`, then save or retune. -/
def TC_query_lockin_buffer (sample : ℚ) (s : TCState) : TCState × List Action :=
  let st1 : ScanState :=
    { s.scan with y := s.scan.y.set s.scan.current_x_index sample }
  let st2 := next_freq st1
  if st2.avg < st2.current_avg then
    ((TC_save_data { s with scan := st2 }).1,
     Action.publishY st1.y :: (TC_save_data { s with scan := st2 }).2)
  else
    ((TC_tune_syn { s with scan := st2 }).1,
     Action.publishY st1.y :: (TC_tune_syn { s with scan := st2 }).2)

/-- Events driving the `TestClass` widget. -/
inductive TCEvent
  | waitTimeout
  | itgTimeout (sample : ℚ)
  | pauseBtn (pressed : Bool)

/-- Event dispatch: a single-shot timer fires only while armed and disarms when
it fires; a timeout whose slot has been disconnected performs no action;
pressing the pause button disconnects the wait-timer slot, releasing it
reconnects `set_lockin_buffer` and restarts the wait timer (lines 579-587). -/
def TC_step (e : TCEvent) (s : TCState) : TCState × List Action :=
  match e with
  | TCEvent.waitTimeout =>
      if s.waitArmed then
        if s.waitConnected then TC_set_lockin_buffer { s with waitArmed := false }
        else ({ s with waitArmed := false }, [])
      else (s, [])
  | TCEvent.itgTimeout sample =>
      if s.itgArmed then TC_query_lockin_buffer sample { s with itgArmed := false }
      else (s, [])
  | TCEvent.pauseBtn true => ({ s with waitConnected := false, paused := true }, [])
  | TCEvent.pauseBtn false =>
      ({ s with waitConnected := true, waitArmed := true, paused := false }, [])

/-- C3 counterexample: with the scan paused and the integration delay already
armed at pause time, the integration-delay expiry still runs the full
acquisition: it emits a synthesizer tune and changes both the current-pass and
accumulated-sum arrays, contradicting the claim that while paused no tune
occurs and the arrays are unchanged even if an already-armed delay expires. -/
theorem C3_pause_counterexample :
    (⟨⟨[10], 0, 1, 0, [0], [0]⟩, false, true, false, true⟩ : TCState).paused = true ∧
    Action.tuneSyn (5 / 3) ∈
      (TC_step (TCEvent.itgTimeout 5)
        ⟨⟨[10], 0, 1, 0, [0], [0]⟩, false, true, false, true⟩).2 ∧
    (TC_step (TCEvent.itgTimeout 5)
      ⟨⟨[10], 0, 1, 0, [0], [0]⟩, false, true, false, true⟩).1.scan.y = [5] ∧
    (TC_step (TCEvent.itgTimeout 5)
      ⟨⟨[10], 0, 1, 0, [0], [0]⟩, false, true, false, true⟩).1.scan.y_sum = [5] ∧
    (TC_step (TCEvent.itgTimeout 5)
      ⟨⟨[10], 0, 1, 0, [0], [0]⟩, false, true, false, true⟩).1.paused = true ∧
    (⟨⟨[10], 0, 1, 0, [0], [0]⟩, false, true, false, true⟩ : TCState).scan.y = [0] ∧
    (⟨⟨[10], 0, 1, 0, [0], [0]⟩, false, true, false, true⟩ : TCState).scan.y_sum = [0] := by
  have hstep : TC_step (TCEvent.itgTimeout 5)
      ⟨⟨[10], 0, 1, 0, [0], [0]⟩, false, true, false, true⟩ =
      (⟨⟨[10], 0, 1, 1, [5], [5]⟩, true, false, false, true⟩,
       [Action.publishY [5], Action.tuneSyn (5 / 3)]) := by
    norm_num [TC_step, TC_query_lockin_buffer, TC_tune_syn, TC_save_data, next_freq,
      update_ysum, addArr, geti, List.set, List.zipWith]
  rw [hstep]
  refine ⟨rfl, ?_, rfl, rfl, rfl, rfl, rfl⟩
  simp

/-- C3 (amended): while paused, a settle-delay expiry performs no action at all
(so no lock-in setup and no subsequent tune arise from that path, and the scan
arrays are unchanged); the pause press itself emits nothing and leaves the scan
data untouched; an integration delay already armed at pause time, however,
still fires in full — its effect is independent of the pause wiring; resuming
reconnects the settle slot, arms exactly one new settle delay, and emits no
instrument action. -/
theorem C3_pause_behavior :
    (∀ s : TCState, s.waitConnected = false →
      (TC_step TCEvent.waitTimeout s).2 = [] ∧
      (TC_step TCEvent.waitTimeout s).1.scan = s.scan ∧
      (TC_step TCEvent.waitTimeout s).1.itgArmed = s.itgArmed) ∧
    (∀ s : TCState,
      (TC_step (TCEvent.pauseBtn true) s).2 = [] ∧
      (TC_step (TCEvent.pauseBtn true) s).1.scan = s.scan ∧
      (TC_step (TCEvent.pauseBtn true) s).1.waitConnected = false) ∧
    (∀ (s : TCState) (v : ℚ),
      (TC_step (TCEvent.itgTimeout v) { s with waitConnected := false }).1.scan =
        (TC_step (TCEvent.itgTimeout v) { s with waitConnected := true }).1.scan ∧
      (TC_step (TCEvent.itgTimeout v) { s with waitConnected := false }).2 =
        (TC_step (TCEvent.itgTimeout v) { s with waitConnected := true }).2) ∧
    (∀ s : TCState,
      (TC_step (TCEvent.pauseBtn false) s).1.waitConnected = true ∧
      (TC_step (TCEvent.pauseBtn false) s).1.waitArmed = true ∧
      (TC_step (TCEvent.pauseBtn false) s).2 = []) := by
  refine ⟨?_, ?_, ?_, ?_⟩
  · intro s h
    cases hw : s.waitArmed <;>
      simp [TC_step, hw, h, TC_set_lockin_buffer]
  · intro s
    exact ⟨rfl, rfl, rfl⟩
  · intro s v
    cases hi : s.itgArmed
    · constructor <;> simp [TC_step, hi]
    · constructor <;>
        · simp only [TC_step, hi, if_true, TC_query_lockin_buffer, TC_save_data, TC_tune_syn]
          split_ifs <;> rfl
  · intro s
    exact ⟨rfl, rfl, rfl⟩

theorem C3_pause_behavior_witness :
    (TC_step TCEvent.waitTimeout
      ⟨⟨[10], 0, 1, 0, [0], [0]⟩, true, false, false, true⟩).2 = [] ∧
    (TC_step TCEvent.waitTimeout
      ⟨⟨[10], 0, 1, 0, [0], [0]⟩, true, false, false, true⟩).1.scan =
      (⟨⟨[10], 0, 1, 0, [0], [0]⟩, true, false, false, true⟩ : TCState).scan ∧
    (TC_step (TCEvent.pauseBtn false)
      ⟨⟨[10], 0, 1, 0, [0], [0]⟩, false, false, false, true⟩).1.waitConnected = true ∧
    (TC_step (TCEvent.pauseBtn false)
      ⟨⟨[10], 0, 1, 0, [0], [0]⟩, false, false, false, true⟩).1.waitArmed = true := by
  have h1 := C3_pause_behavior.1 ⟨⟨[10], 0, 1, 0, [0], [0]⟩, true, false, false, true⟩ rfl
  have h4 := C3_pause_behavior.2.2.2 ⟨⟨[10], 0, 1, 0, [0], [0]⟩, false, false, false, true⟩
  exact ⟨h1.1, h1.2.1, h4.1, h4.2.1⟩

/-! ## Batch sequencing (`JPLScanWindow.next_entry`) -/

/-- Events observable at the batch-controller boundary: installing a window's
entry settings into the engine, a window's completion signal
(`move_to_next_entry`, emitted by `save_data`), and the batch-finished event
(`JPLScanWindow.finish`). -/
inductive BEvent
  | install (e : EntrySetting)
  | completeWin (i : ℕ)
  | finished
deriving DecidableEq, Repr

/-- Embedding of `JPLScanWindow.next_entry` (lines 216-223) driving the engine
through the batch: the method is entered with the already-incremented window
index `i` (`current_entry_index` starts at `-1` and the constructor emits the
signal once, so the first call runs at `i = 0`).  While `i` is within the batch
list, the `i`-th entry settings are installed into the engine
(`update_setting`), the engine then runs that window to completion — by
`C1_pingpong_completion` it terminates and `save_data` emits
`move_to_next_entry`, recorded as `completeWin i` — which re-enters
`next_entry` at `i + 1`; once `i` reaches the batch length, `finish` fires. -/
def next_entry (settings : List EntrySetting) (i : ℕ) : List BEvent :=
  if h : i < settings.length then
    BEvent.install (settings.get ⟨i, h⟩) :: BEvent.completeWin i ::
      next_entry settings (i + 1)
  else [BEvent.finished]
termination_by settings.length - i

/-- Trace of a whole batch run, starting from the constructor's initial
`move_to_next_entry` emission. -/
def batchTrace (settings : List EntrySetting) : List BEvent := next_entry settings 0

/-- Projection extracting installed entry settings from a trace event. -/
def installOf : BEvent → Option EntrySetting
  | BEvent.install e => some e
  | BEvent.completeWin _ => none
  | BEvent.finished => none

theorem next_entry_unfold_lt (settings : List EntrySetting) (i : ℕ)
    (h : i < settings.length) :
    next_entry settings i =
      BEvent.install (settings.get ⟨i, h⟩) :: BEvent.completeWin i ::
        next_entry settings (i + 1) := by
  rw [next_entry, dif_pos h]

theorem next_entry_unfold_ge (settings : List EntrySetting) (i : ℕ)
    (h : ¬ i < settings.length) :
    next_entry settings i = [BEvent.finished] := by
  rw [next_entry, dif_neg h]

theorem next_entry_spec (settings : List EntrySetting) :
    ∀ (n i : ℕ), settings.length - i = n →
      (next_entry settings i).length = 2 * n + 1 ∧
      (∀ m, i + m < settings.length →
        (next_entry settings i).get? (2 * m) =
          (settings.get? (i + m)).map BEvent.install ∧
        (next_entry settings i).get? (2 * m + 1) = some (BEvent.completeWin (i + m))) ∧
      (next_entry settings i).get? (2 * n) = some BEvent.finished ∧
      (∀ p, p < 2 * n → (next_entry settings i).get? p ≠ some BEvent.finished) ∧
      (next_entry settings i).filterMap installOf = settings.drop i := by
  intro n
  induction n with
  | zero =>
    intro i hi
    have hge : ¬ i < settings.length := by omega
    rw [next_entry_unfold_ge settings i hge]
    refine ⟨rfl, ?_, rfl, ?_, ?_⟩
    · intro m hm
      omega
    · intro p hp
      omega
    · rw [List.drop_eq_nil_of_le (by omega)]
      rfl
  | succ n ih =>
    intro i hi
    have hlt : i < settings.length := by omega
    obtain ⟨ihlen, ihget, ihfin, ihnof, ihfm⟩ := ih (i + 1) (by omega)
    rw [next_entry_unfold_lt settings i hlt]
    refine ⟨?_, ?_, ?_, ?_, ?_⟩
    · simp only [List.length_cons, ihlen]
      omega
    · intro m hm
      cases m with
      | zero =>
        constructor
        · show some (BEvent.install (settings.get ⟨i, hlt⟩)) =
            (settings.get? (i + 0)).map BEvent.install
          rw [List.get?_eq_get (show i + 0 < settings.length by omega)]
          rfl
        · rfl
      | succ m =>
        have e2 : 2 * (m + 1) = 2 * m + 1 + 1 := by ring
        rw [e2, List.get?_cons_succ, List.get?_cons_succ,
          List.get?_cons_succ, List.get?_cons_succ]
        obtain ⟨hg1, hg2⟩ := ihget m (by omega)
        have eidx : i + (m + 1) = i + 1 + m := by omega
        rw [eidx]
        exact ⟨hg1, hg2⟩
    · have e2 : 2 * (n + 1) = 2 * n + 1 + 1 := by ring
      rw [e2, List.get?_cons_succ, List.get?_cons_succ]
      exact ihfin
    · intro p hp
      match p with
      | 0 => simp
      | 1 => simp
      | p + 2 =>
        rw [List.get?_cons_succ, List.get?_cons_succ]
        exact ihnof p (by omega)
    · show (BEvent.install (settings.get ⟨i, hlt⟩) ::
        BEvent.completeWin i :: next_entry settings (i + 1)).filterMap installOf =
        settings.drop i
      rw [List.filterMap_cons, List.filterMap_cons]
      simp only [installOf]
      rw [ihfm, List.drop_eq_getElem_cons hlt]
      rfl

/-- C4: for a batch plan of `K ≥ 1` windows, the trace of `next_entry` installs
each entry setting exactly once, in plan order (the installs extracted from the
trace are exactly the plan list); window `m`'s install sits at trace position
`2m`, strictly after window `m-1`'s completion at position `2m - 1`, so no
window is installed before the previous one completes; and the batch-finished
event occurs exactly once, at the very end, immediately after the `K`-th
window's completion — it fires if and only if the `K`-th window has reached
completion. -/
theorem C4_batch_order (settings : List EntrySetting) (hK : 1 ≤ settings.length) :
    (batchTrace settings).length = 2 * settings.length + 1 ∧
    (∀ m, m < settings.length →
      (batchTrace settings).get? (2 * m) = (settings.get? m).map BEvent.install ∧
      (batchTrace settings).get? (2 * m + 1) = some (BEvent.completeWin m)) ∧
    (batchTrace settings).filterMap installOf = settings ∧
    (batchTrace settings).get? (2 * settings.length) = some BEvent.finished ∧
    (batchTrace settings).get? (2 * settings.length - 1) =
      some (BEvent.completeWin (settings.length - 1)) ∧
    (∀ p, p < 2 * settings.length →
      (batchTrace settings).get? p ≠ some BEvent.finished) := by
  obtain ⟨hlen, hget, hfin, hnof, hfm⟩ :=
    next_entry_spec settings settings.length 0 (by omega)
  unfold batchTrace
  refine ⟨hlen, ?_, ?_, hfin, ?_, hnof⟩
  · intro m hm
    obtain ⟨h1, h2⟩ := hget m (by omega)
    rw [Nat.zero_add] at h1 h2
    exact ⟨h1, h2⟩
  · rw [hfm]
    rfl
  · have e1 : 2 * settings.length - 1 = 2 * (settings.length - 1) + 1 := by omega
    obtain ⟨_, h2⟩ := hget (settings.length - 1) (by omega)
    rw [Nat.zero_add] at h2
    rw [e1, h2]

theorem C4_batch_order_witness :
    (batchTrace [⟨1, 2, 1, 1, 0, 0, 1, 1⟩, ⟨3, 4, 1, 2, 1, 1, 2, 2⟩]).length = 5 ∧
    (batchTrace [⟨1, 2, 1, 1, 0, 0, 1, 1⟩, ⟨3, 4, 1, 2, 1, 1, 2, 2⟩]).get? 2 =
      (([⟨1, 2, 1, 1, 0, 0, 1, 1⟩, ⟨3, 4, 1, 2, 1, 1, 2, 2⟩] :
        List EntrySetting).get? 1).map BEvent.install ∧
    (batchTrace [⟨1, 2, 1, 1, 0, 0, 1, 1⟩, ⟨3, 4, 1, 2, 1, 1, 2, 2⟩]).get? 3 =
      some (BEvent.completeWin 1) ∧
    (batchTrace [⟨1, 2, 1, 1, 0, 0, 1, 1⟩, ⟨3, 4, 1, 2, 1, 1, 2, 2⟩]).filterMap installOf =
      [⟨1, 2, 1, 1, 0, 0, 1, 1⟩, ⟨3, 4, 1, 2, 1, 1, 2, 2⟩] ∧
    (batchTrace [⟨1, 2, 1, 1, 0, 0, 1, 1⟩, ⟨3, 4, 1, 2, 1, 1, 2, 2⟩]).get? 4 =
      some BEvent.finished ∧
    (batchTrace [⟨1, 2, 1, 1, 0, 0, 1, 1⟩, ⟨3, 4, 1, 2, 1, 1, 2, 2⟩]).get? 1 ≠
      some BEvent.finished := by
  have h := C4_batch_order [⟨1, 2, 1, 1, 0, 0, 1, 1⟩, ⟨3, 4, 1, 2, 1, 1, 2, 2⟩] (by decide)
  obtain ⟨h1, h2, h3, h4, h5, h6⟩ := h
  obtain ⟨h21, h22⟩ := h2 1 (by decide)
  exact ⟨h1, h21, h22, h3, h4, h6 1 (by decide)⟩

/-! ## Error propagation through the acquisition step

The engine contains no `try`/`except` anywhere: an exception raised by an
instrument or storage call aborts the timer slot mid-body.  Mutations performed
before the raise persist, later statements (including the `save_data` /
`tune_syn` continuation and the `move_to_next_entry` emission) do not run, and
nothing anywhere catches the exception or reports it — it escapes to the GUI
event loop, which `JPLScanWindow` never observes. -/

/-- Which external calls of one acquisition step succeed: the lock-in pause
(`PAUS`), the sample-count query (`SPTS?`), the buffer read (`TRCA…`), the
time-constant read in `save_data` (`apilc.read_tc`), and the spectrum write
(`save.save_lwa`). -/
structure EnvFlags where
  pausOk : Bool
  sptsOk : Bool
  trcaOk : Bool
  readTcOk : Bool
  saveOk : Bool
deriving DecidableEq, Repr

/-- Error classes of the external calls. -/
inductive ScanErr
  | instrumentError
  | storageError
deriving DecidableEq, Repr

/-- Embedding of `SingleScan.query_lockin_buffer` (lines 364-388) together with
`SingleScan.save_data` (lines 415-424), with every external call fallible as
dictated by `env`.  The result is the state after the slot returns or aborts,
the externally visible actions that actually happened, and the escaped
exception, if any. -/
def query_lockin_buffer_err (env : EnvFlags) (mult : ℚ) (buf : List ℚ) (s : SState) :
    SState × List Action × Option ScanErr :=
  if env.pausOk = false then (s, [], some ScanErr.instrumentError)
  else if env.sptsOk = false then
    (s, [Action.pauseBuffer], some ScanErr.instrumentError)
  else if env.trcaOk = false then
    (s, [Action.pauseBuffer, Action.queryCount], some ScanErr.instrumentError)
  else
    let n := buf.length
    let y_avg := mean (buf.take (n - 1))
    let st1 : ScanState :=
      { s.scan with y := s.scan.y.set s.scan.current_x_index y_avg }
    let st2 := next_freq st1
    let acts := [Action.pauseBuffer, Action.queryCount, Action.readSamples (n - 1),
                 Action.publishY st1.y]
    if st2.avg < st2.current_avg then
      if env.readTcOk = false then
        (⟨st2, s.waitArmed, false⟩, acts, some ScanErr.instrumentError)
      else if env.saveOk = false then
        (⟨st2, s.waitArmed, false⟩, acts, some ScanErr.storageError)
      else
        (⟨st2, s.waitArmed, false⟩,
         acts ++ [Action.saveData (save_spectrum st2), Action.nextEntry], none)
    else
      ((tune_syn mult ⟨st2, s.waitArmed, false⟩).1,
       acts ++ (tune_syn mult ⟨st2, s.waitArmed, false⟩).2, none)

/-- C9 counterexample: a storage failure at window completion aborts the step
with the error escaped to the event loop; the actions actually performed are
exactly the four acquisition actions — in particular no `nextEntry` (so the
halt of the batch does hold) but also no `reportHalt` whatsoever: the halted
batch reports neither which window nor which state it stopped in, refuting that
part of the claim as stated. -/
theorem C9_error_counterexample :
    query_lockin_buffer_err ⟨true, true, true, true, false⟩ 6 [2, 4]
        ⟨⟨[10], 0, 0, 0, [0], [0]⟩, false, true⟩ =
      (⟨⟨[10], 0, 0, 1, [2], [2]⟩, false, false⟩,
       [Action.pauseBuffer, Action.queryCount, Action.readSamples 1, Action.publishY [2]],
       some ScanErr.storageError) := by
  norm_num [query_lockin_buffer_err, mean, next_freq, update_ysum, addArr, geti,
    List.set, List.zipWith, List.take]

/-- C9 (amended): if an instrument or storage operation fails mid-window, the
acquisition step aborts with the error escaping the engine, the next window is
not installed (no `nextEntry` is emitted, so the batch halts rather than
skipping ahead), and the current window's accumulated-sum array is left intact
(either unchanged, or holding the just-folded pass — never discarded); however
no report of the halted window or state is produced, and the error reaches the
event loop rather than the batch controller. -/
theorem C9_error_halt (env : EnvFlags) (mult : ℚ) (buf : List ℚ) (s : SState)
    (e : ScanErr) (he : (query_lockin_buffer_err env mult buf s).2.2 = some e) :
    Action.nextEntry ∉ (query_lockin_buffer_err env mult buf s).2.1 ∧
    (∀ w st, Action.reportHalt w st ∉ (query_lockin_buffer_err env mult buf s).2.1) ∧
    ((query_lockin_buffer_err env mult buf s).1.scan.y_sum = s.scan.y_sum ∨
     (query_lockin_buffer_err env mult buf s).1.scan.y_sum =
       addArr s.scan.y_sum (query_lockin_buffer_err env mult buf s).1.scan.y) := by
  unfold query_lockin_buffer_err at he ⊢
  dsimp only at he ⊢
  split_ifs at he ⊢
  · exact ⟨by simp, fun w st => by simp, Or.inl rfl⟩
  · exact ⟨by simp, fun w st => by simp, Or.inl rfl⟩
  · exact ⟨by simp, fun w st => by simp, Or.inl rfl⟩
  · refine ⟨by simp, fun w st => by simp, ?_⟩
    rcases next_freq_y_sum_cases { s.scan with y := (s.scan.y.set s.scan.current_x_index (mean (buf.take (buf.length - 1)))) } with h | h
    · exact Or.inl h
    · refine Or.inr ?_
      rw [h, next_freq_y]
  · refine ⟨by simp, fun w st => by simp, ?_⟩
    rcases next_freq_y_sum_cases { s.scan with y := (s.scan.y.set s.scan.current_x_index (mean (buf.take (buf.length - 1)))) } with h | h
    · exact Or.inl h
    · refine Or.inr ?_
      rw [h, next_freq_y]

theorem C9_error_halt_witness :
    Action.nextEntry ∉ (query_lockin_buffer_err ⟨true, true, true, true, false⟩ 6 [2, 4]
      ⟨⟨[10], 0, 0, 0, [0], [0]⟩, false, true⟩).2.1 ∧
    Action.reportHalt 0 0 ∉ (query_lockin_buffer_err ⟨true, true, true, true, false⟩ 6 [2, 4]
      ⟨⟨[10], 0, 0, 0, [0], [0]⟩, false, true⟩).2.1 ∧
    ((query_lockin_buffer_err ⟨true, true, true, true, false⟩ 6 [2, 4]
        ⟨⟨[10], 0, 0, 0, [0], [0]⟩, false, true⟩).1.scan.y_sum =
      (⟨⟨[10], 0, 0, 0, [0], [0]⟩, false, true⟩ : SState).scan.y_sum ∨
     (query_lockin_buffer_err ⟨true, true, true, true, false⟩ 6 [2, 4]
        ⟨⟨[10], 0, 0, 0, [0], [0]⟩, false, true⟩).1.scan.y_sum =
      addArr (⟨⟨[10], 0, 0, 0, [0], [0]⟩, false, true⟩ : SState).scan.y_sum
        (query_lockin_buffer_err ⟨true, true, true, true, false⟩ 6 [2, 4]
          ⟨⟨[10], 0, 0, 0, [0], [0]⟩, false, true⟩).1.scan.y) := by
  have h := C9_error_halt ⟨true, true, true, true, false⟩ 6 [2, 4]
    ⟨⟨[10], 0, 0, 0, [0], [0]⟩, false, true⟩ ScanErr.storageError
    (by simp [query_lockin_buffer_err, next_freq, update_ysum])
  exact ⟨h.1, h.2.1 0 0, h.2.2⟩

end PySpec
